import Mathlib

/-!
Shallow embedding of the neos repository (models.py, database.py, filters.py)
and proofs about its linking, lookup, query, filter and limit operations.

Python conventions used throughout the embedding:
- an attribute that may never have been assigned is an `Option` field, and an
  access to it when absent is the `attributeError` outcome;
- operations that can raise return `Except PyErr`;
- Python float values are rationals, with `nan` a separate constructor where
  the code can produce it (an unknown diameter).
-/

/-- Errors the embedded code can raise, one constructor per Python exception
type the source can produce.  `unsupportedCriterion` embeds the dedicated
`UnsupportedCriterionError` class of filters.py, distinct from the generic
error types. -/
inductive PyErr where
  | attributeError
  | keyError
  | typeError
  | valueError
  | unsupportedCriterion
deriving DecidableEq, Repr

/-- A naive Python datetime, to minute precision as in the data set. -/
structure PyDateTime where
  year : Nat
  month : Nat
  day : Nat
  hour : Nat
  minute : Nat
deriving DecidableEq, Repr

/-- A Python `datetime.date`. -/
structure PyDate where
  year : Nat
  month : Nat
  day : Nat
deriving DecidableEq, Repr

/-- The `.date()` method of a datetime: discard the time of day. -/
def PyDateTime.date (t : PyDateTime) : PyDate :=
  ⟨t.year, t.month, t.day⟩

/-- Values a filter can fetch from an approach or compare against. -/
inductive PyVal where
  | num (q : ℚ)
  | nan
  | str (s : String)
  | bool (b : Bool)
  | date (d : PyDate)
  | none
deriving DecidableEq, Repr

/-- Month number of a three-letter month abbreviation, as used by the
compact NASA timestamp format. -/
def monthOfAbbrev (s : String) : Option Nat :=
  if s = "Jan" then some 1 else if s = "Feb" then some 2
  else if s = "Mar" then some 3 else if s = "Apr" then some 4
  else if s = "May" then some 5 else if s = "Jun" then some 6
  else if s = "Jul" then some 7 else if s = "Aug" then some 8
  else if s = "Sep" then some 9 else if s = "Oct" then some 10
  else if s = "Nov" then some 11 else if s = "Dec" then some 12
  else Option.none

/-- Parse a decimal numeral, none on any non-digit. -/
def parseNatDigits (s : String) : Option Nat :=
  if s.isEmpty then Option.none
  else if s.all Char.isDigit then some s.toNat!
  else Option.none

/-- Modelled from the spec: helpers.py is not part of the supplied sources;
per the spec an event's `occurred_at` is "parsed from compact textual
timestamp" of the calendar-date form `YYYY-Mon-DD HH:MM`, raising on a
malformed field.  `cd_to_datetime` embeds that parser. -/
def cd_to_datetime (s : String) : Except PyErr PyDateTime :=
  match s.splitOn " " with
  | [d, t] =>
    match d.splitOn "-", t.splitOn ":" with
    | [ys, ms, ds], [hs, mins] =>
      match parseNatDigits ys, monthOfAbbrev ms, parseNatDigits ds,
            parseNatDigits hs, parseNatDigits mins with
      | some y, some mo, some dd, some h, some mi => .ok ⟨y, mo, dd, h, mi⟩
      | _, _, _, _, _ => .error .valueError
    | _, _ => .error .valueError
  | _ => .error .valueError

/-- Left-pad a numeral to two digits. -/
def pad2 (n : Nat) : String :=
  if n < 10 then "0" ++ toString n else toString n

/-- Modelled from the spec: helpers.py is not part of the supplied sources;
per the spec the serialized timestamp string drops seconds, in the form
`YYYY-MM-DD HH:MM`.  `datetime_to_str` embeds that formatter. -/
def datetime_to_str (t : PyDateTime) : String :=
  toString t.year ++ "-" ++ pad2 t.month ++ "-" ++ pad2 t.day ++ " "
    ++ pad2 t.hour ++ ":" ++ pad2 t.minute

/-- A `NearEarthObject` as its constructor leaves it: stripped optional
designation and name, a diameter that is a number or nan, and the hazardous
flag.  (The linked `approaches` collection lives in `LinkState` below, keyed
by object index, because linking mutates shared objects.) -/
structure Neo where
  designation : Option String
  name : Option String
  diameter : PyVal
  hazardous : Bool
deriving DecidableEq, Repr

/-- The keyword arguments of `CloseApproach.__init__` (models.py, line 141):
the raw `time`, `designation`, `distance` and `velocity` entries of `info`. -/
structure ApprInfo where
  time : Option String
  designation : Option String
  distance : Option String
  velocity : Option String
deriving DecidableEq, Repr

/-- A `CloseApproach` object.  `time = none` and `des = none` embed the
attribute never having been assigned (the constructor skips the assignment
when the input is `None`); `neo` is the linked NEO reference, `Option.none`
until linking. -/
structure CloseApproach where
  distance : ℚ
  velocity : ℚ
  time : Option PyDateTime
  des : Option String
  neo : Option Neo
deriving DecidableEq, Repr

/-- `CloseApproach.__init__` (models.py, lines 141-163): sets `distance`
and `velocity` to `0.0`, parses `time` with `cd_to_datetime` only when the
input is not `None` (otherwise the attribute stays unassigned), strips the
designation when not `None` (otherwise `_designation` stays unassigned), and
initializes `neo` to `None`.  The supplied `distance` and `velocity` entries
of `info` are never read. -/
def mkCloseApproach (info : ApprInfo) : Except PyErr CloseApproach := do
  let t : Option PyDateTime ←
    match info.time with
    | Option.none => pure Option.none
    | some s => do
        let dt ← cd_to_datetime s
        pure (some dt)
  .ok { distance := 0, velocity := 0, time := t,
        des := info.designation.map String.trim, neo := Option.none }

/-- The `time_str` property (models.py, lines 175-191): formats `self.time`;
accessing `self.time` when the attribute was never assigned raises
`AttributeError`. -/
def time_str (a : CloseApproach) : Except PyErr String :=
  match a.time with
  | Option.none => .error .attributeError
  | some t => .ok (datetime_to_str t)

/-- A `NearEarthObject.ascsv` row (models.py, lines 96-103). -/
def neoAscsv (n : Neo) : List PyVal :=
  [match n.designation with | Option.none => PyVal.none | some s => .str s,
   .str (n.name.getD ""), n.diameter, .bool n.hazardous]

/-- `CloseApproach.ascsv` (models.py, lines 193-202): reads `self.time`
(raising `AttributeError` when never assigned), formats it, and calls
`self.neo.ascsv()` (raising `AttributeError` when `neo` is `None`). -/
def apprAscsv (a : CloseApproach) : Except PyErr (List PyVal) :=
  match a.time with
  | Option.none => .error .attributeError
  | some t =>
    match a.neo with
    | Option.none => .error .attributeError
    | some n => .ok ([.str (datetime_to_str t), .num a.distance,
                      .num a.velocity] ++ neoAscsv n)

/-- `CloseApproach.asjson` (models.py, lines 204-212): same accesses as
`ascsv`, producing the keyed fields. -/
def apprAsjson (a : CloseApproach) :
    Except PyErr (String × ℚ × ℚ × List PyVal) :=
  match a.time with
  | Option.none => .error .attributeError
  | some t =>
    match a.neo with
    | Option.none => .error .attributeError
    | some n => .ok (datetime_to_str t, a.distance, a.velocity, neoAscsv n)

/-- The field accessor of a filter: `base` is the unoverridden
`AttributeFilter.prop` (filters.py line 62), the others are the concrete
subclasses of filters.py. -/
inductive FilterKind where
  | base
  | diameter
  | hazardous
  | velocity
  | distance
  | date
deriving DecidableEq, Repr

/-- The comparison operators create_filters uses (operator.eq, ge, le). -/
inductive CmpOp where
  | eq
  | ge
  | le
deriving DecidableEq, Repr

/-- An `AttributeFilter` instance: its class (field accessor), comparator
and reference value. -/
structure AttrFilter where
  kind : FilterKind
  opr : CmpOp
  value : PyVal
deriving DecidableEq, Repr

/-- The `prop` classmethod of each filter class (filters.py): the base class
raises `UnsupportedCriterionError`; `FilterByDiameter` and
`FilterByHazardous` read `approach.neo.diameter` / `approach.neo.hazardous`
(raising `AttributeError` when `neo` is `None`); `FilterByVelocity` and
`FilterByDistance` read the approach's own fields; `FilterByDate` reads
`approach.time.date()` (raising `AttributeError` when `time` was never
assigned). -/
def propOf : FilterKind → CloseApproach → Except PyErr PyVal
  | .base, _ => .error .unsupportedCriterion
  | .diameter, a =>
    match a.neo with
    | Option.none => .error .attributeError
    | some n => .ok n.diameter
  | .hazardous, a =>
    match a.neo with
    | Option.none => .error .attributeError
    | some n => .ok (.bool n.hazardous)
  | .velocity, a => .ok (.num a.velocity)
  | .distance, a => .ok (.num a.distance)
  | .date, a =>
    match a.time with
    | Option.none => .error .attributeError
    | some t => .ok (.date t.date)

/-- Python `==` on the values the program compares: equality within one
type, `False` across types, and `nan` unequal to everything including
itself. -/
def pyEqVal : PyVal → PyVal → Bool
  | .num a, .num b => a == b
  | .str a, .str b => a == b
  | .bool a, .bool b => a == b
  | .date a, .date b => a == b
  | .none, .none => true
  | _, _ => false

/-- Ordering of dates, componentwise lexicographic. -/
def dateLe (a b : PyDate) : Bool :=
  if a.year ≠ b.year then a.year < b.year
  else if a.month ≠ b.month then a.month < b.month
  else a.day ≤ b.day

/-- Python comparison dispatch for the operators and operand types the
program uses: `eq` never raises, `ge`/`le` compare numbers or dates, treat
any comparison with `nan` as false, and raise `TypeError` on mismatched
operand types. -/
def pyCmpB : CmpOp → PyVal → PyVal → Except PyErr Bool
  | .eq, x, y => .ok (pyEqVal x y)
  | .ge, .num a, .num b => .ok (b ≤ a)
  | .le, .num a, .num b => .ok (a ≤ b)
  | .ge, .nan, .num _ => .ok false
  | .le, .nan, .num _ => .ok false
  | .ge, .num _, .nan => .ok false
  | .le, .num _, .nan => .ok false
  | .ge, .nan, .nan => .ok false
  | .le, .nan, .nan => .ok false
  | .ge, .date a, .date b => .ok (dateLe b a)
  | .le, .date a, .date b => .ok (dateLe a b)
  | _, _, _ => .error .typeError

/-- `AttributeFilter.__call__` (filters.py line 58):
`self.opr(self.prop(approach), self.value)` - the accessor is evaluated
first, so its exception propagates before the comparison happens. -/
def callFilter (f : AttrFilter) (a : CloseApproach) : Except PyErr Bool := do
  let p ← propOf f.kind a
  pyCmpB f.opr p f.value

/-- Python `float()` applied to a `datetime.date` raises `TypeError` -
this is what `create_filters` does to its `date`, `start_date` and
`end_date` arguments (filters.py lines 207-214). -/
def floatOfDate (_ : PyDate) : Except PyErr ℚ :=
  .error .typeError

/-- An optional filter entry: the singleton list when the option was
supplied, empty otherwise. -/
def optFilter (o : Option α) (f : α → AttrFilter) : List AttrFilter :=
  match o with
  | Option.none => []
  | some x => [f x]

/-- `create_filters` (filters.py, lines 146-216).  Appends, in source
order: diameter min/max (`float` of a number is itself), hazardous
(`bool` of a Bool is itself), velocity min/max, distance min/max, and then
the three date criteria - each of which applies `float()` to a
`datetime.date` argument and therefore raises `TypeError` when supplied. -/
def create_filters (date start_date end_date : Option PyDate)
    (distance_min distance_max velocity_min velocity_max : Option ℚ)
    (diameter_min diameter_max : Option ℚ) (hazardous : Option Bool) :
    Except PyErr (List AttrFilter) := do
  let filters : List AttrFilter := []
  let filters := filters ++ optFilter diameter_min
    (fun q => ⟨.diameter, .ge, .num q⟩)
  let filters := filters ++ optFilter diameter_max
    (fun q => ⟨.diameter, .le, .num q⟩)
  let filters := filters ++ optFilter hazardous
    (fun b => ⟨.hazardous, .eq, .bool b⟩)
  let filters := filters ++ optFilter velocity_min
    (fun q => ⟨.velocity, .ge, .num q⟩)
  let filters := filters ++ optFilter velocity_max
    (fun q => ⟨.velocity, .le, .num q⟩)
  let filters := filters ++ optFilter distance_min
    (fun q => ⟨.distance, .ge, .num q⟩)
  let filters := filters ++ optFilter distance_max
    (fun q => ⟨.distance, .le, .num q⟩)
  let filters ←
    match date with
    | Option.none => pure filters
    | some d => do
        let v ← floatOfDate d
        pure (filters ++ [⟨.date, .eq, .num v⟩])
  let filters ←
    match start_date with
    | Option.none => pure filters
    | some d => do
        let v ← floatOfDate d
        pure (filters ++ [⟨.date, .ge, .num v⟩])
  let filters ←
    match end_date with
    | Option.none => pure filters
    | some d => do
        let v ← floatOfDate d
        pure (filters ++ [⟨.date, .le, .num v⟩])
  .ok filters

/-- A Python sequence value as `limit` receives it: either a list (which
supports `len()` and slicing) or a generator such as the one `query`
returns (which supports neither). -/
inductive PySeq (α : Type) where
  | list (l : List α)
  | gen (l : List α)
deriving DecidableEq, Repr

/-- Python `len()`: raises `TypeError` on a generator. -/
def pyLen : PySeq α → Except PyErr Nat
  | .list l => .ok l.length
  | .gen _ => .error .typeError

/-- Python slicing `seq[:cap]`: raises `TypeError` on a generator. -/
def pySlice : PySeq α → Nat → Except PyErr (PySeq α)
  | .list l, c => .ok (.list (l.take c))
  | .gen _, _ => .error .typeError

/-- `limit` (filters.py, lines 219-230):
`cap = len(iterator) if cap is None or cap == 0 else cap` followed by
`return iterator[:cap]`. -/
def limit (it : PySeq α) (cap : Option Nat) : Except PyErr (PySeq α) := do
  let c ←
    match cap with
    | Option.none => pyLen it
    | some 0 => pyLen it
    | some c => pure c
  pySlice it c

/-- The flat branch of `NEODatabase.query` (database.py, lines 167-177):
per approach, `elligible` starts `True` and is cleared when any filter
fails, so an approach is yielded exactly when every filter passes. -/
def queryFlat (apprs : List α) (filters : List (α → Bool)) : List α :=
  apprs.filter (fun a => filters.all (fun f => f a))

/-- One group of the map branch of `NEODatabase.query` (database.py, lines
156-166): `elligible` is initialized once per designation group, before the
loop over that group's approaches, and is only ever cleared - the threaded
Boolean is the source's `elligible` variable. -/
def queryMapGroup (filters : List (α → Bool)) :
    List α → List α → Bool → List α × Bool
  | [], acc, ellig => (acc, ellig)
  | a :: rest, acc, ellig =>
    let ellig := ellig && filters.all (fun f => f a)
    queryMapGroup filters rest (if ellig then acc ++ [a] else acc) ellig

/-- The map branch of `NEODatabase.query` (database.py, lines 155-166):
iterate the designation groups in stored order, running the group loop with
a fresh `elligible = True` for each group. -/
def queryMap (apprsMap : List (String × List α))
    (filters : List (α → Bool)) : List α :=
  apprsMap.foldl (fun acc p => (queryMapGroup filters p.2 acc true).1) []

/-- The mutable linkage state of a database: for each NEO (by index into
the NEO collection) the `approaches` list it has accumulated (approach
indices, in append order), and for each approach (by index) its `neo`
attribute (a NEO index once linked).  Indices stand for object identity,
since linking mutates shared objects in place. -/
structure LinkState where
  neoApprs : List (List Nat)
  apprNeo : List (Option Nat)
deriving DecidableEq, Repr

/-- Replace the element at an index by applying a function; out-of-range
indices leave the list unchanged. -/
def updAt (f : α → α) : Nat → List α → List α
  | _, [] => []
  | 0, x :: xs => f x :: xs
  | n + 1, x :: xs => x :: updAt f n xs

/-- One step of `NearEarthObject.approached_as` (models.py, lines 90-94)
for a single approach: `self.approaches.append(apprch)` and
`apprch.neo = self`. -/
def linkOne (st : LinkState) (nIdx aIdx : Nat) : LinkState :=
  { neoApprs := updAt (fun l => l ++ [aIdx]) nIdx st.neoApprs,
    apprNeo := updAt (fun _ => some nIdx) aIdx st.apprNeo }

/-- `NearEarthObject.approached_as` over a whole collection of approaches:
append each in order and set its `neo` reference. -/
def approachedAs (st : LinkState) (nIdx : Nat) (group : List Nat) :
    LinkState :=
  group.foldl (fun s a => linkOne s nIdx a) st

/-- The `neopdes` property (models.py, lines 165-168): reading
`self._designation` raises `AttributeError` when the constructor never
assigned it. -/
def neopdes : Option String → Except PyErr String
  | Option.none => .error .attributeError
  | some s => .ok s

/-- The inner loop of the flat branch of `NEODatabase.__init__`
(database.py, lines 61-65) for one approach: scan the enumerated NEOs and
on `neo.pdes == apprch.neopdes` run `neo.approached_as([apprch])`.  The
right-hand side of the comparison re-reads `apprch.neopdes` on every
iteration, so an approach with an unassigned designation raises as soon as
there is a NEO to compare against. -/
def flatInner (aIdx : Nat) (aKey : Option String) :
    List (Nat × Option String) → LinkState → Except PyErr LinkState
  | [], st => .ok st
  | (nIdx, nKey) :: rest, st => do
    let k ← neopdes aKey
    flatInner aIdx aKey rest
      (if nKey == some k then linkOne st nIdx aIdx else st)

/-- The outer loop of the flat branch of `NEODatabase.__init__`
(database.py, lines 60-65): iterate the approaches in stored order,
running the NEO scan for each. -/
def flatLoop (neoPairs : List (Nat × Option String)) :
    List (Nat × Option String) → LinkState → Except PyErr LinkState
  | [], st => .ok st
  | (aIdx, aKey) :: rest, st => do
    let st' ← flatInner aIdx aKey neoPairs st
    flatLoop neoPairs rest st'

/-- The unlinked state the constructor starts from: every NEO has an empty
`approaches` collection and every approach has `neo = None`. -/
def initState (nNeos nApprs : Nat) : LinkState :=
  ⟨List.replicate nNeos [], List.replicate nApprs Option.none⟩

/-- Flat-representation database construction (database.py, lines 60-65):
`neoKeys` are the NEOs' designations in collection order, `apprKeys` the
approaches' `_designation` attributes in collection order (`Option.none`
embeds an attribute the constructor never assigned). -/
def linkFlat (neoKeys : List (Option String))
    (apprKeys : List (Option String)) : Except PyErr LinkState :=
  flatLoop neoKeys.enum apprKeys.enum
    (initState neoKeys.length apprKeys.length)

/-- Python dict lookup order: first (and, keys being unique, only) binding
for the key in an association list. -/
def alookup (k : String) : List (String × β) → Option β
  | [] => Option.none
  | (k1, v) :: rest => if k1 == k then some v else alookup k rest

/-- The map branch of `NEODatabase.__init__` (database.py, lines 52-58):
for each designation group of approaches, `neo = neos[neopdes]` raises
`KeyError` when the key is absent from the NEO mapping (the subsequent
`if neo is not None` guard can then never see a `None`), and otherwise the
whole group is linked with `approached_as`. -/
def mapLoop (neosMap : List (String × Nat)) :
    List (String × List Nat) → LinkState → Except PyErr LinkState
  | [], st => .ok st
  | (k, group) :: rest, st =>
    match alookup k neosMap with
    | Option.none => .error .keyError
    | some nIdx => mapLoop neosMap rest (approachedAs st nIdx group)

/-- Map-representation database construction (database.py, lines 52-58):
`neosMap` maps designation keys to NEO indices, `apprsMap` maps designation
keys to the approach-index groups, both in stored (insertion) order;
`nNeos` and `nApprs` size the initial unlinked state. -/
def linkMap (neosMap : List (String × Nat))
    (apprsMap : List (String × List Nat)) (nNeos nApprs : Nat) :
    Except PyErr LinkState :=
  mapLoop neosMap apprsMap (initState nNeos nApprs)

/-- Append one keyed element to an insertion-ordered association list of
groups, the way a `defaultdict(list)` accumulates: an existing key extends
its group in place, a new key is appended at the end. -/
def addToGroup : List (String × List Nat) → String → Nat →
    List (String × List Nat)
  | [], k, i => [(k, [i])]
  | (k1, g) :: rest, k, i =>
    if k1 == k then (k1, g ++ [i]) :: rest
    else (k1, g) :: addToGroup rest k i

/-- Group enumerated approaches by their designation key in order of first
key occurrence, preserving input order within each group - the
designation-keyed mapping presentation of a flat approach sequence. -/
def groupByKey (l : List (Nat × String)) : List (String × List Nat) :=
  l.foldl (fun m p => addToGroup m p.2 p.1) []

/-- Indices of the enumerated approaches whose key equals the given NEO
designation, in input order - the matching events of one entity. -/
def matchingIdxs (nKey : Option String) : List (Nat × String) → List Nat
  | [] => []
  | (a, k) :: rest =>
    if (some k : Option String) == nKey then a :: matchingIdxs nKey rest
    else matchingIdxs nKey rest

/-- The last enumerated NEO whose designation equals the key, or none -
the NEO a matching approach ends up referencing after a flat scan (each
match overwrites `apprch.neo`, so the last one wins). -/
def lastMatch (k : String) : List (Nat × Option String) → Option Nat
  | [] => Option.none
  | (n, nk) :: rest =>
    match lastMatch k rest with
    | some m => some m
    | Option.none => if nk == some k then some n else Option.none

/-- The closed form of the linkage a flat scan produces: each NEO holds
exactly its matching approaches in input order, and each approach
references the last NEO whose designation equals its key. -/
def canonState (neoKeys : List (Option String)) (apprKeys : List String) :
    LinkState :=
  ⟨neoKeys.map (fun nk => matchingIdxs nk apprKeys.enum),
   apprKeys.map (fun k => lastMatch k neoKeys.enum)⟩

/-- `NEODatabase.get_neo_by_designation`, flat branch (database.py, lines
69-99): `None` or empty input short-circuits to `None`; otherwise the first
NEO whose `pdes` equals the input, by exact string comparison. -/
def getNeoByDesignationFlat (neos : List Neo) (designation : Option String) :
    Option Neo :=
  match designation with
  | Option.none => Option.none
  | some d =>
    if d = "" then Option.none
    else neos.find? (fun neo => neo.designation == some d)

/-- `NEODatabase.get_neo_by_designation`, map branch (database.py, lines
87-92): iterates the mapping and compares each dict key (not the stored
NEO's designation) with the input. -/
def getNeoByDesignationMap (neosMap : List (String × Neo))
    (designation : Option String) : Option Neo :=
  match designation with
  | Option.none => Option.none
  | some d =>
    if d = "" then Option.none
    else (neosMap.find? (fun p => p.1 == d)).map (fun p => p.2)

/-- `NEODatabase.get_neo_by_name`, flat branch (database.py, lines
101-138): `None` or empty input short-circuits to `None`; NEOs with an
absent or empty name are skipped; otherwise the first NEO whose name
equals the input, by exact string comparison. -/
def getNeoByNameFlat (neos : List Neo) (name : Option String) : Option Neo :=
  match name with
  | Option.none => Option.none
  | some nm =>
    if nm = "" then Option.none
    else neos.find? (fun neo =>
      match neo.name with
      | Option.none => false
      | some s => if s = "" then false else s == nm)

/-- `NEODatabase.get_neo_by_name`, map branch (database.py, lines
120-127): same skip-and-compare logic over the mapping's values. -/
def getNeoByNameMap (neosMap : List (String × Neo)) (name : Option String) :
    Option Neo :=
  match name with
  | Option.none => Option.none
  | some nm =>
    if nm = "" then Option.none
    else (neosMap.find? (fun p =>
      match p.2.name with
      | Option.none => false
      | some s => if s = "" then false else s == nm)).map (fun p => p.2)

/-- A concrete always-distance-like predicate used in counterexamples. -/
def geOneFilter : Nat → Bool := fun n => decide (1 ≤ n)

/-- C1: the claim fails on the map-backed representation.  With one
designation group holding two events, the first failing every predicate and
the second satisfying them all, the map branch of `query` yields nothing -
the stale `elligible` flag set by the first event suppresses the second -
although the second event satisfies every predicate and the flat branch
(the claimed behavior) yields exactly it. -/
theorem c1_query_map_drops_matching_event :
    queryMap [("x", [0, 2])] [geOneFilter] = [] ∧
    geOneFilter 2 = true ∧
    queryFlat [0, 2] [geOneFilter] = [2] :=
  ⟨rfl, rfl, rfl⟩

/-- C2: constructing a close approach with parseable numeric distance
`0.15` and velocity `5.0` still yields `distance = 0` and `velocity = 0`:
the constructor never reads the supplied values, although they parse to the
nonzero rationals `3/20` and `5`. -/
theorem c2_distance_velocity_ignored :
    mkCloseApproach ⟨Option.none, Option.none, some "0.15", some "5.0"⟩ =
      .ok ⟨0, 0, Option.none, Option.none, Option.none⟩ ∧
    (3 : ℚ) / 20 ≠ 0 ∧ (5 : ℚ) ≠ 0 :=
  ⟨rfl, by norm_num, by norm_num⟩

/-- C5: with one NEO of designation `a` and one approach keyed `b`
(matching no NEO), flat construction completes and leaves the approach's
`neo` absent, but map construction raises `KeyError` on `neos[neopdes]`
instead of completing. -/
theorem c5_map_construction_raises_on_unmatched_event :
    linkFlat [some "a"] [some "b"] = .ok ⟨[[]], [Option.none]⟩ ∧
    linkMap [("a", 0)] [("b", [0])] 1 1 = .error .keyError :=
  ⟨rfl, rfl⟩

/-- C6: `limit` behaves as claimed on lists (`cap` absent or zero passes
the whole sequence through, a positive `cap` takes the first `cap`
elements in order), but on the generator `query` returns it raises
`TypeError` - `len()` and slicing are unsupported on generators - instead
of lazily yielding at most `cap` elements. -/
theorem c6_limit_typeerror_on_generator :
    (∀ l : List Nat, limit (PySeq.list l) Option.none = .ok (PySeq.list l)) ∧
    (∀ l : List Nat, limit (PySeq.list l) (some 0) = .ok (PySeq.list l)) ∧
    (∀ (l : List Nat) (k : Nat),
      limit (PySeq.list l) (some (k + 1)) =
        .ok (PySeq.list (l.take (k + 1)))) ∧
    (∀ (apprs : List Nat) (fs : List (Nat → Bool)) (k : Nat),
      limit (PySeq.gen (queryFlat apprs fs)) (some (k + 1)) =
        .error .typeError) := by
  refine ⟨fun l => ?_, fun l => ?_, fun l k => rfl, fun apprs fs k => rfl⟩
  · show (Except.ok (PySeq.list (l.take l.length)) : Except PyErr (PySeq Nat))
      = .ok (.list l)
    rw [List.take_length]
  · show (Except.ok (PySeq.list (l.take l.length)) : Except PyErr (PySeq Nat))
      = .ok (.list l)
    rw [List.take_length]

/-- C8: with no options supplied `create_filters` yields the empty filter
collection, but supplying `date`, `start_date` or `end_date` (a
`datetime.date` value, as documented) raises `TypeError` from
`float(date)` instead of producing a calendar-date predicate. -/
theorem c8_create_filters_raises_on_date_options :
    create_filters Option.none Option.none Option.none Option.none
      Option.none Option.none Option.none Option.none Option.none
      Option.none = .ok [] ∧
    (∀ d : PyDate,
      create_filters (some d) Option.none Option.none Option.none
        Option.none Option.none Option.none Option.none Option.none
        Option.none = .error .typeError) ∧
    (∀ d : PyDate,
      create_filters Option.none (some d) Option.none Option.none
        Option.none Option.none Option.none Option.none Option.none
        Option.none = .error .typeError) ∧
    (∀ d : PyDate,
      create_filters Option.none Option.none (some d) Option.none
        Option.none Option.none Option.none Option.none Option.none
        Option.none = .error .typeError) :=
  ⟨rfl, fun _ => rfl, fun _ => rfl, fun _ => rfl⟩

/-- C9: calling a base `AttributeFilter` - whose `prop` is not
overridden - on any approach raises the dedicated
`UnsupportedCriterionError` at first evaluation, whatever the comparator
and reference value, and that error type is distinct from every generic
error type of the embedding. -/
theorem c9_base_filter_raises_unsupported_criterion :
    (∀ (o : CmpOp) (v : PyVal) (a : CloseApproach),
      callFilter ⟨.base, o, v⟩ a = .error .unsupportedCriterion) ∧
    PyErr.unsupportedCriterion ≠ PyErr.typeError ∧
    PyErr.unsupportedCriterion ≠ PyErr.attributeError ∧
    PyErr.unsupportedCriterion ≠ PyErr.valueError ∧
    PyErr.unsupportedCriterion ≠ PyErr.keyError :=
  ⟨fun _ _ _ => rfl, by decide, by decide, by decide, by decide⟩

/-- The close approach the constructor produces from an absent time value:
no `time` attribute, `neo` still absent. -/
def mkNoTime (des : Option String) : CloseApproach :=
  ⟨0, 0, Option.none, des.map String.trim, Option.none⟩

/-- C10: a close approach constructed with an absent (`None`) time value
has no `time` attribute at all, and every subsequent read of the
timestamp - `time_str`, a date-based predicate, CSV and JSON
serialization - raises `AttributeError` on it. -/
theorem c10_absent_time_attribute_raises_downstream :
    ∀ (des dist vel : Option String) (o : CmpOp) (v : PyVal),
      mkCloseApproach ⟨Option.none, des, dist, vel⟩ = .ok (mkNoTime des) ∧
      (mkNoTime des).time = Option.none ∧
      time_str (mkNoTime des) = .error .attributeError ∧
      callFilter ⟨.date, o, v⟩ (mkNoTime des) = .error .attributeError ∧
      apprAscsv (mkNoTime des) = .error .attributeError ∧
      apprAsjson (mkNoTime des) = .error .attributeError :=
  fun _ _ _ _ _ => ⟨rfl, rfl, rfl, rfl, rfl, rfl⟩

/-- A first-match scan returns a given element when it is in the list,
satisfies the predicate, and is the only element of the list that does. -/
theorem find?_eq_some_of_unique {α : Type} (p : α → Bool) (l : List α)
    (e : α) (he : e ∈ l) (hpe : p e = true)
    (hu : ∀ x ∈ l, p x = true → x = e) :
    l.find? p = some e := by
  induction l with
  | nil => cases he
  | cons x xs ih =>
    cases hpx : p x with
    | true =>
      rw [List.find?_cons_of_pos _ hpx]
      exact congrArg some (hu x (List.mem_cons_self x xs) hpx)
    | false =>
      rw [List.find?_cons_of_neg _ (by simp [hpx])]
      have hxe : x ≠ e := fun h => by rw [h, hpe] at hpx; cases hpx
      have he' : e ∈ xs := by
        rcases List.mem_cons.mp he with h | h
        · exact absurd h.symm hxe
        · exact h
      exact ih he' (fun y hy hpy => hu y (List.mem_cons_of_mem _ hy) hpy)

/-- A concrete stored entity used to exhibit the case-sensitivity of the
lookups. -/
def erosNeo : Neo := ⟨some "Eros", some "Eros", .nan, false⟩

/-- C7, counterexample: the claim demands that looking up a stored
entity's designation in any letter casing returns that entity; for the
database holding exactly `erosNeo` (designation `Eros`), looking up
`EROS` returns `None` instead of the entity - the match is exact, as
`get_neo_by_designation`'s docstring itself states. -/
theorem c7_counterexample_lookup_not_case_insensitive :
    getNeoByDesignationFlat [erosNeo] (some "EROS") ≠ some erosNeo ∧
    getNeoByNameFlat [erosNeo] (some "EROS") ≠ some erosNeo := by
  constructor <;> decide

/-- C7, amended: `get_neo_by_designation` and `get_neo_by_name` match by
exact (case-sensitive) string comparison - looking up a stored entity's
designation (resp. name) verbatim returns that entity when it is the only
one bearing it - and an absent or empty key always yields `None`, under
both backing representations.  Both getters are pure functions of the
database in this embedding, matching the never-mutates part of the
claim. -/
theorem c7_amended_lookups_exact_match (neos : List Neo) (e : Neo)
    (d nm : String) (he : e ∈ neos)
    (hd : e.designation = some d) (hd0 : d ≠ "")
    (hn : e.name = some nm) (hn0 : nm ≠ "")
    (hud : ∀ x ∈ neos, x.designation = some d → x = e)
    (hun : ∀ x ∈ neos, x.name = some nm → x = e) :
    getNeoByDesignationFlat neos (some d) = some e ∧
    getNeoByNameFlat neos (some nm) = some e ∧
    getNeoByDesignationFlat neos Option.none = Option.none ∧
    getNeoByDesignationFlat neos (some "") = Option.none ∧
    getNeoByNameFlat neos Option.none = Option.none ∧
    getNeoByNameFlat neos (some "") = Option.none ∧
    (∀ m : List (String × Neo),
      getNeoByDesignationMap m Option.none = Option.none ∧
      getNeoByDesignationMap m (some "") = Option.none ∧
      getNeoByNameMap m Option.none = Option.none ∧
      getNeoByNameMap m (some "") = Option.none) := by
  refine ⟨?_, ?_, rfl, by simp [getNeoByDesignationFlat], rfl,
    by simp [getNeoByNameFlat],
    fun m => ⟨rfl, by simp [getNeoByDesignationMap], rfl,
      by simp [getNeoByNameMap]⟩⟩
  · simp only [getNeoByDesignationFlat, hd0, if_false]
    exact find?_eq_some_of_unique _ neos e he (by simp [hd])
      (fun x hx hpx => hud x hx (by simpa using hpx))
  · simp only [getNeoByNameFlat, hn0, if_false]
    refine find?_eq_some_of_unique _ neos e he (by simp [hn, hn0]) ?_
    intro x hx hpx
    refine hun x hx ?_
    cases hxn : x.name with
    | none => rw [hxn] at hpx; cases hpx
    | some s =>
      rw [hxn] at hpx
      by_cases hs : s = ""
      · simp [hs] at hpx
      · simp only [hs, if_false, beq_iff_eq] at hpx
        rw [hpx]

/-- A second concrete entity, with distinct designation and name, for the
C7 witness. -/
def neo433 : Neo := ⟨some "433", some "Eros", .nan, false⟩

/-- C7, witness: in the singleton database holding `neo433`, looking up
its designation `433` and its name `Eros` verbatim returns it. -/
theorem c7_amended_lookups_exact_match_witness :
    getNeoByDesignationFlat [neo433] (some "433") = some neo433 ∧
    getNeoByNameFlat [neo433] (some "Eros") = some neo433 := by
  have h := c7_amended_lookups_exact_match [neo433] neo433 "433" "Eros"
    (by simp) rfl (by decide) rfl (by decide)
    (fun x hx _ => by simpa using hx) (fun x hx _ => by simpa using hx)
  exact ⟨h.1, h.2.1⟩

/-- Point lookup through an index update: only the updated index changes,
by applying the function to the old entry. -/
theorem updAt_get? (f : α → α) (n j : Nat) (l : List α) :
    (updAt f n l).get? j = if n = j then (l.get? j).map f else l.get? j := by
  induction l generalizing n j with
  | nil => cases n <;> simp [updAt]
  | cons x xs ih =>
    cases n with
    | zero => cases j <;> simp [updAt]
    | succ n =>
      cases j with
      | zero => simp [updAt]
      | succ j => simpa [updAt] using ih n j

/-- Linking one approach to one NEO appends the approach to that NEO's
collection and leaves every other NEO's collection alone. -/
theorem linkOne_neoApprs_get? (st : LinkState) (n a j : Nat) :
    (linkOne st n a).neoApprs.get? j =
      if n = j then (st.neoApprs.get? j).map (fun l => l ++ [a])
      else st.neoApprs.get? j :=
  updAt_get? _ n j _

/-- Linking one approach to one NEO overwrites that approach's `neo`
reference and leaves every other approach's reference alone. -/
theorem linkOne_apprNeo_get? (st : LinkState) (n a b : Nat) :
    (linkOne st n a).apprNeo.get? b =
      if a = b then (st.apprNeo.get? b).map (fun _ => some n)
      else st.apprNeo.get? b :=
  updAt_get? _ a b _

/-- The pure effect of the flat inner NEO scan for one approach whose key
is present: link the approach to each NEO whose designation equals the
key, in NEO order. -/
def innerApply (k : String) (a : Nat) (ps : List (Nat × Option String))
    (st : LinkState) : LinkState :=
  ps.foldl (fun s p => if p.2 == some k then linkOne s p.1 a else s) st

/-- The flat inner scan never raises when the approach's designation
attribute is present, and computes `innerApply`. -/
theorem flatInner_some (a : Nat) (k : String) :
    ∀ (ps : List (Nat × Option String)) (st : LinkState),
      flatInner a (some k) ps st = .ok (innerApply k a ps st) := by
  intro ps
  induction ps with
  | nil => intro st; rfl
  | cons p rest ih =>
    intro st
    obtain ⟨nIdx, nKey⟩ := p
    exact ih (if nKey == some k then linkOne st nIdx a else st)

/-- Effect of the inner scan on one NEO's collection: the approach is
appended exactly when that NEO's designation equals the key. -/
theorem innerApply_neoApprs (nks : List (Option String)) (k : String)
    (a : Nat) :
    ∀ (i j : Nat) (st : LinkState),
      (innerApply k a (List.enumFrom i nks) st).neoApprs.get? j =
        if i ≤ j ∧ nks.get? (j - i) = some (some k)
        then (st.neoApprs.get? j).map (fun l => l ++ [a])
        else st.neoApprs.get? j := by
  induction nks with
  | nil =>
    intro i j st
    simp [innerApply, List.enumFrom]
  | cons nk rest ih =>
    intro i j st
    have step : innerApply k a (List.enumFrom i (nk :: rest)) st =
        innerApply k a (List.enumFrom (i + 1) rest)
          (if nk == some k then linkOne st i a else st) := rfl
    rw [step, ih (i + 1) j]
    rcases Nat.lt_trichotomy j i with hlt | heq | hgt
    · have h1 : ¬(i + 1 ≤ j ∧ rest.get? (j - (i + 1)) = some (some k)) := by
        rintro ⟨h, -⟩; omega
      have h2 : ¬(i ≤ j ∧ (nk :: rest).get? (j - i) = some (some k)) := by
        rintro ⟨h, -⟩; omega
      rw [if_neg h1, if_neg h2]
      cases hk : (nk == some k) with
      | true => rw [if_pos rfl, linkOne_neoApprs_get?, if_neg (by omega)]
      | false => rw [if_neg (by simp)]
    · subst heq
      have h1 : ¬(j + 1 ≤ j ∧ rest.get? (j - (j + 1)) = some (some k)) := by
        rintro ⟨h, -⟩; omega
      rw [if_neg h1]
      have hget : (nk :: rest).get? (j - j) = some nk := by
        rw [Nat.sub_self]; rfl
      cases hk : (nk == some k) with
      | true =>
        have hnk : nk = some k := by simpa using hk
        have hc : j ≤ j ∧ (nk :: rest).get? (j - j) = some (some k) :=
          ⟨le_rfl, by rw [hget, hnk]⟩
        rw [if_pos rfl, if_pos hc, linkOne_neoApprs_get?, if_pos rfl]
      | false =>
        have hnk : ¬nk = some k := by simpa using hk
        have hc : ¬(j ≤ j ∧ (nk :: rest).get? (j - j) = some (some k)) := by
          rintro ⟨-, h⟩
          rw [hget] at h
          exact hnk (by simpa using h)
        rw [if_neg (by simp), if_neg hc]
    · have hsub : j - i = (j - (i + 1)) + 1 := by omega
      have hgetc : (nk :: rest).get? (j - i) = rest.get? (j - (i + 1)) := by
        rw [hsub]; rfl
      have hst : (if nk == some k then linkOne st i a else st).neoApprs.get? j
          = st.neoApprs.get? j := by
        cases hk : (nk == some k) with
        | true => rw [if_pos rfl, linkOne_neoApprs_get?, if_neg (by omega)]
        | false => rw [if_neg (by simp)]
      rw [hst]
      have hiff : (i + 1 ≤ j ∧ rest.get? (j - (i + 1)) = some (some k)) ↔
          (i ≤ j ∧ (nk :: rest).get? (j - i) = some (some k)) := by
        rw [hgetc]
        constructor
        · rintro ⟨h, hh⟩; exact ⟨by omega, hh⟩
        · rintro ⟨h, hh⟩; exact ⟨by omega, hh⟩
      by_cases hc : i + 1 ≤ j ∧ rest.get? (j - (i + 1)) = some (some k)
      · rw [if_pos hc, if_pos (hiff.mp hc)]
      · rw [if_neg hc, if_neg (fun h => hc (hiff.mpr h))]

/-- Overwrite an approach's stored `neo` reference when a linking target
exists, keep it otherwise. -/
def assignNeo (o : Option Nat) (v : Option (Option Nat)) :
    Option (Option Nat) :=
  match o with
  | Option.none => v
  | some n => v.map (fun _ => some n)

/-- Effect of the inner scan on one approach's `neo` reference: only the
scanned approach is touched, and it ends up referencing the last NEO whose
designation equals the key, if any. -/
theorem innerApply_apprNeo (nks : List (Option String)) (k : String)
    (a : Nat) :
    ∀ (i b : Nat) (st : LinkState),
      (innerApply k a (List.enumFrom i nks) st).apprNeo.get? b =
        if a = b then
          assignNeo (lastMatch k (List.enumFrom i nks)) (st.apprNeo.get? b)
        else st.apprNeo.get? b := by
  induction nks with
  | nil =>
    intro i b st
    by_cases hab : a = b <;>
      simp [innerApply, List.enumFrom, lastMatch, assignNeo, hab]
  | cons nk rest ih =>
    intro i b st
    have step : innerApply k a (List.enumFrom i (nk :: rest)) st =
        innerApply k a (List.enumFrom (i + 1) rest)
          (if nk == some k then linkOne st i a else st) := rfl
    have lmstep : lastMatch k (List.enumFrom i (nk :: rest)) =
        match lastMatch k (List.enumFrom (i + 1) rest) with
        | some m => some m
        | Option.none => if nk == some k then some i else Option.none := rfl
    rw [step, ih (i + 1) b, lmstep]
    by_cases hab : a = b
    · rw [if_pos hab, if_pos hab]
      cases hlm : lastMatch k (List.enumFrom (i + 1) rest) with
      | some m =>
        cases hk : (nk == some k) with
        | true =>
          rw [if_pos rfl, linkOne_apprNeo_get?, if_pos hab]
          cases st.apprNeo.get? b <;> simp [assignNeo]
        | false => rw [if_neg (by simp)]
      | none =>
        cases hk : (nk == some k) with
        | true =>
          rw [if_pos rfl, linkOne_apprNeo_get?, if_pos hab]
          simp [assignNeo]
        | false =>
          rw [if_neg (by simp)]
          simp [assignNeo]
    · rw [if_neg hab, if_neg hab]
      cases hk : (nk == some k) with
      | true => rw [if_pos rfl, linkOne_apprNeo_get?, if_neg hab]
      | false => rw [if_neg (by simp)]

/-- Specialization of the inner-scan collection effect to a scan of the
whole enumerated NEO list. -/
theorem innerApply_neoApprs_enum (nks : List (Option String)) (k : String)
    (a j : Nat) (st : LinkState) :
    (innerApply k a nks.enum st).neoApprs.get? j =
      if nks.get? j = some (some k)
      then (st.neoApprs.get? j).map (fun l => l ++ [a])
      else st.neoApprs.get? j := by
  rw [show nks.enum = List.enumFrom 0 nks from rfl,
    innerApply_neoApprs nks k a 0 j st]
  simp

/-- Specialization of the inner-scan reference effect to a scan of the
whole enumerated NEO list. -/
theorem innerApply_apprNeo_enum (nks : List (Option String)) (k : String)
    (a b : Nat) (st : LinkState) :
    (innerApply k a nks.enum st).apprNeo.get? b =
      if a = b then assignNeo (lastMatch k nks.enum) (st.apprNeo.get? b)
      else st.apprNeo.get? b := by
  rw [show nks.enum = List.enumFrom 0 nks from rfl, innerApply_apprNeo]

/-- Present enumerated events' keys the way the flat constructor reads
them (every `_designation` attribute present). -/
def mapSome (ps : List (Nat × String)) : List (Nat × Option String) :=
  ps.map (fun p => (p.1, some p.2))

/-- The key carried by the enumerated event with a given index (first
occurrence). -/
def findKey? (b : Nat) : List (Nat × String) → Option String
  | [] => Option.none
  | (a, k) :: rest => if a = b then some k else findKey? b rest

/-- Enumerated events whose key equals a NEO designation looked up with
`get?` (so an out-of-range or absent designation matches nothing). -/
def matchesAt (onk : Option (Option String)) :
    List (Nat × String) → List Nat
  | [] => []
  | (a, k) :: rest =>
    if onk = some (some k) then a :: matchesAt onk rest
    else matchesAt onk rest

/-- The `neo` reference an event ends up with, from the key it carries:
absent key or no matching NEO leaves the reference untouched. -/
def keyAssign (neoKeys : List (Option String)) (fk : Option String)
    (v : Option (Option Nat)) : Option (Option Nat) :=
  match fk with
  | Option.none => v
  | some k => assignNeo (lastMatch k neoKeys.enum) v

/-- An index that occurs nowhere in the enumerated events has no key. -/
theorem findKey?_eq_none (b : Nat) :
    ∀ ps : List (Nat × String),
      b ∉ ps.map Prod.fst → findKey? b ps = Option.none := by
  intro ps
  induction ps with
  | nil => intro _; rfl
  | cons p rest ih =>
    intro h
    obtain ⟨a, k⟩ := p
    simp only [List.map_cons, List.mem_cons] at h
    push_neg at h
    show (if a = b then some k else findKey? b rest) = Option.none
    rw [if_neg (fun hh => h.1 hh.symm), ih h.2]

/-- Characterization of the flat construction loop: starting from any
state, it never raises when every event key is present, each NEO's
collection gains exactly its matching events in input order, and each
event's reference is overwritten with the last matching NEO (if any). -/
theorem flatLoop_char (neoKeys : List (Option String)) :
    ∀ (pairs : List (Nat × String)) (st : LinkState),
      (pairs.map Prod.fst).Nodup →
      ∃ stF, flatLoop neoKeys.enum (mapSome pairs) st = .ok stF ∧
        (∀ j, stF.neoApprs.get? j =
          (st.neoApprs.get? j).map
            (fun l => l ++ matchesAt (neoKeys.get? j) pairs)) ∧
        (∀ b, stF.apprNeo.get? b =
          keyAssign neoKeys (findKey? b pairs) (st.apprNeo.get? b)) := by
  intro pairs
  induction pairs with
  | nil =>
    intro st _
    refine ⟨st, rfl, fun j => ?_, fun b => rfl⟩
    cases st.neoApprs.get? j <;> simp [matchesAt]
  | cons p rest ih =>
    intro st hnd
    obtain ⟨a, k⟩ := p
    simp only [List.map_cons, List.nodup_cons] at hnd
    obtain ⟨stF, hrun, hN, hA⟩ := ih (innerApply k a neoKeys.enum st) hnd.2
    have hstep : flatLoop neoKeys.enum (mapSome ((a, k) :: rest)) st =
        flatLoop neoKeys.enum (mapSome rest)
          (innerApply k a neoKeys.enum st) := by
      show (do
        let st2 ← flatInner a (some k) neoKeys.enum st
        flatLoop neoKeys.enum (mapSome rest) st2) =
        flatLoop neoKeys.enum (mapSome rest)
          (innerApply k a neoKeys.enum st)
      rw [flatInner_some]
      rfl
    refine ⟨stF, hstep.trans hrun, fun j => ?_, fun b => ?_⟩
    · rw [hN j, innerApply_neoApprs_enum]
      by_cases hc : neoKeys.get? j = some (some k)
      · rw [if_pos hc]
        have hm : matchesAt (neoKeys.get? j) ((a, k) :: rest) =
            a :: matchesAt (neoKeys.get? j) rest := by
          show (if neoKeys.get? j = some (some k) then _ else _) = _
          rw [if_pos hc]
        rw [hm]
        cases st.neoApprs.get? j <;> simp
      · rw [if_neg hc]
        have hm : matchesAt (neoKeys.get? j) ((a, k) :: rest) =
            matchesAt (neoKeys.get? j) rest := by
          show (if neoKeys.get? j = some (some k) then _ else _) = _
          rw [if_neg hc]
        rw [hm]
    · rw [hA b, innerApply_apprNeo_enum]
      by_cases hb : a = b
      · subst hb
        have hfk : findKey? a rest = Option.none :=
          findKey?_eq_none a rest hnd.1
        have hcons : findKey? a ((a, k) :: rest) = some k := by
          show (if a = a then some k else _) = _
          rw [if_pos rfl]
        rw [hfk, hcons, if_pos rfl]
        simp [keyAssign]
      · have hcons : findKey? b ((a, k) :: rest) = findKey? b rest := by
          show (if a = b then some k else _) = _
          rw [if_neg hb]
        rw [hcons, if_neg hb]

/-- Point lookup in a replicated list. -/
theorem replicate_get? {α : Type} (n m : Nat) (x : α) :
    (List.replicate n x).get? m = if m < n then some x else Option.none := by
  simp [List.get?_eq_getElem?, List.getElem?_replicate]

/-- Two linkage states with equal components are equal. -/
theorem linkStateExt (s t : LinkState) (h1 : s.neoApprs = t.neoApprs)
    (h2 : s.apprNeo = t.apprNeo) : s = t := by
  cases s; cases t; simp_all

/-- Matching against a present designation coincides with the canonical
matching-events function. -/
theorem matchesAt_some (nk : Option String) :
    ∀ pairs : List (Nat × String),
      matchesAt (some nk) pairs = matchingIdxs nk pairs := by
  intro pairs
  induction pairs with
  | nil => rfl
  | cons p rest ih =>
    obtain ⟨a, k⟩ := p
    simp only [matchesAt, matchingIdxs]
    by_cases h : nk = some k
    · subst h
      rw [if_pos rfl, if_pos (by simp), ih]
    · rw [if_neg (by simpa using h),
        if_neg (by simp only [beq_iff_eq]; exact fun hh => h hh.symm), ih]

/-- The key of the enumerated event at an index is the underlying list
entry at that index. -/
theorem findKey?_enumFrom (l : List String) :
    ∀ (i b : Nat), i ≤ b →
      findKey? b (List.enumFrom i l) = l.get? (b - i) := by
  induction l with
  | nil => intro i b _; rfl
  | cons x xs ih =>
    intro i b hib
    show (if i = b then some x else findKey? b (List.enumFrom (i + 1) xs))
      = (x :: xs).get? (b - i)
    by_cases h : i = b
    · subst h; rw [if_pos rfl, Nat.sub_self]; rfl
    · have h1 : i + 1 ≤ b := by omega
      rw [if_neg h, ih (i + 1) b h1]
      have hsub : b - i = (b - (i + 1)) + 1 := by omega
      rw [hsub]
      rfl

/-- Indices produced by enumeration from `i` are at least `i`. -/
theorem mem_enumFrom_fst {α : Type} (l : List α) :
    ∀ (i b : Nat), b ∈ (List.enumFrom i l).map Prod.fst → i ≤ b := by
  induction l with
  | nil => intro i b h; simp [List.enumFrom] at h
  | cons x xs ih =>
    intro i b h
    simp only [List.enumFrom, List.map_cons, List.mem_cons] at h
    rcases h with h | h
    · omega
    · have := ih (i + 1) b h; omega

/-- Enumeration produces pairwise distinct indices. -/
theorem enumFrom_fst_nodup {α : Type} (l : List α) :
    ∀ i : Nat, ((List.enumFrom i l).map Prod.fst).Nodup := by
  induction l with
  | nil => intro i; simp [List.enumFrom]
  | cons x xs ih =>
    intro i
    simp only [List.enumFrom, List.map_cons, List.nodup_cons]
    refine ⟨fun h => ?_, ih (i + 1)⟩
    have := mem_enumFrom_fst xs (i + 1) i h
    omega

/-- Enumerating a list of present keys is the present-key view of the
enumeration. -/
theorem enumFrom_map_some (l : List String) :
    ∀ i : Nat, List.enumFrom i (l.map some) = mapSome (List.enumFrom i l) := by
  induction l with
  | nil => intro i; rfl
  | cons x xs ih =>
    intro i
    show (i, some x) :: List.enumFrom (i + 1) (xs.map some)
      = (i, some x) :: mapSome (List.enumFrom (i + 1) xs)
    rw [ih (i + 1)]

/-- Flat-representation construction (database.py, lines 60-65) never
raises when every approach's designation attribute is present, and
produces exactly the canonical linkage: each NEO's collection holds its
matching approaches in input order, and each approach references the last
NEO whose designation equals its key (none if unmatched). -/
theorem linkFlat_eq_canon (neoKeys : List (Option String))
    (apprKeys : List String) :
    linkFlat neoKeys (apprKeys.map some) =
      .ok (canonState neoKeys apprKeys) := by
  unfold linkFlat
  have h1 : (apprKeys.map some).enum = mapSome apprKeys.enum := by
    rw [show (apprKeys.map some).enum
          = List.enumFrom 0 (apprKeys.map some) from rfl,
        show apprKeys.enum = List.enumFrom 0 apprKeys from rfl]
    exact enumFrom_map_some apprKeys 0
  have hlen : (apprKeys.map some).length = apprKeys.length := by simp
  rw [h1, hlen]
  have hnd : ((apprKeys.enum).map Prod.fst).Nodup := by
    rw [show apprKeys.enum = List.enumFrom 0 apprKeys from rfl]
    exact enumFrom_fst_nodup apprKeys 0
  obtain ⟨stF, hrun, hN, hA⟩ := flatLoop_char neoKeys apprKeys.enum
    (initState neoKeys.length apprKeys.length) hnd
  have hfinal : stF = canonState neoKeys apprKeys := by
    refine linkStateExt _ _ (List.ext_get?_iff.mpr fun j => ?_)
      (List.ext_get?_iff.mpr fun b => ?_)
    · rw [hN j]
      show _ = (neoKeys.map
        (fun nk => matchingIdxs nk apprKeys.enum)).get? j
      rw [List.get?_map]
      cases hj : neoKeys.get? j with
      | some nk =>
        have hjlt : j < neoKeys.length := (List.get?_eq_some.mp hj).1
        show ((initState neoKeys.length apprKeys.length).neoApprs.get? j).map
          _ = _
        rw [show (initState neoKeys.length apprKeys.length).neoApprs
              = List.replicate neoKeys.length [] from rfl,
          replicate_get?, if_pos hjlt]
        rw [show (Option.map (fun l => l ++ matchesAt (some nk) apprKeys.enum)
              (some []) : Option (List Nat))
            = some (matchesAt (some nk) apprKeys.enum) by simp]
        rw [matchesAt_some]
        rfl
      | none =>
        have hjge : neoKeys.length ≤ j := List.get?_eq_none.mp hj
        rw [show (initState neoKeys.length apprKeys.length).neoApprs
              = List.replicate neoKeys.length [] from rfl,
          replicate_get?, if_neg (by omega)]
        rfl
    · rw [hA b]
      show _ = (apprKeys.map (fun k => lastMatch k neoKeys.enum)).get? b
      rw [List.get?_map]
      have hfk : findKey? b apprKeys.enum = apprKeys.get? b := by
        rw [show apprKeys.enum = List.enumFrom 0 apprKeys from rfl,
          findKey?_enumFrom apprKeys 0 b (Nat.zero_le b)]
        simp
      rw [hfk]
      cases hb : apprKeys.get? b with
      | some k =>
        have hblt : b < apprKeys.length := (List.get?_eq_some.mp hb).1
        rw [show (initState neoKeys.length apprKeys.length).apprNeo
              = List.replicate apprKeys.length Option.none from rfl,
          replicate_get?, if_pos hblt]
        have hka : keyAssign neoKeys (some k) (some Option.none)
            = some (lastMatch k neoKeys.enum) := by
          cases hlm : lastMatch k neoKeys.enum <;>
            simp [keyAssign, assignNeo, hlm]
        rw [hka]
        rfl
      | none =>
        have hbge : apprKeys.length ≤ b := List.get?_eq_none.mp hb
        rw [show (initState neoKeys.length apprKeys.length).apprNeo
              = List.replicate apprKeys.length Option.none from rfl,
          replicate_get?, if_neg (by omega)]
        rfl
  rw [hrun, hfinal]

/-- A key matched by no NEO designation yields no last match. -/
theorem lastMatch_none (k : String) :
    ∀ (nks : List (Option String)) (i : Nat),
      (∀ j, nks.get? j ≠ some (some k)) →
      lastMatch k (List.enumFrom i nks) = Option.none := by
  intro nks
  induction nks with
  | nil => intro i _; rfl
  | cons nk rest ih =>
    intro i h
    show (match lastMatch k (List.enumFrom (i + 1) rest) with
          | some m => some m
          | Option.none =>
            if nk == some k then some i else Option.none) = Option.none
    rw [ih (i + 1) (fun j hj => h (j + 1) hj)]
    have h0 : nk ≠ some k := fun hh => h 0 (by simp [hh])
    show (if nk == some k then some i else Option.none) = Option.none
    rw [if_neg (by simpa using h0)]

/-- When exactly one NEO carries the key, the last match is that NEO
(offset by the enumeration start). -/
theorem lastMatch_enumFrom (k : String) :
    ∀ (nks : List (Option String)) (i n : Nat),
      nks.get? n = some (some k) →
      (∀ j, nks.get? j = some (some k) → j = n) →
      lastMatch k (List.enumFrom i nks) = some (i + n) := by
  intro nks
  induction nks with
  | nil => intro i n h _; exact absurd h (by simp)
  | cons nk rest ih =>
    intro i n h1 h2
    show (match lastMatch k (List.enumFrom (i + 1) rest) with
          | some m => some m
          | Option.none =>
            if nk == some k then some i else Option.none) = some (i + n)
    by_cases hex : ∃ j, rest.get? j = some (some k)
    · obtain ⟨j0, hj0⟩ := hex
      have hn : n = j0 + 1 := (h2 (j0 + 1) hj0).symm
      have huniq : ∀ j, rest.get? j = some (some k) → j = j0 := by
        intro j hj
        have := h2 (j + 1) hj
        omega
      rw [ih (i + 1) j0 hj0 huniq]
      show some (i + 1 + j0) = some (i + n)
      rw [show i + 1 + j0 = i + n by omega]
    · push_neg at hex
      cases n with
      | succ m => exact absurd h1 (hex m)
      | zero =>
        have hnk : nk = some k := by simpa using h1
        rw [lastMatch_none k rest (i + 1) hex]
        show (if nk == some k then some i else Option.none) = some (i + 0)
        rw [if_pos (by simp [hnk])]
        norm_num

/-- An event whose key equals the designation appears among the matching
events (at its enumerated index). -/
theorem mem_matchingIdxs (d : String) :
    ∀ (l : List String) (i a : Nat), l.get? a = some d →
      (i + a) ∈ matchingIdxs (some d) (List.enumFrom i l) := by
  intro l
  induction l with
  | nil => intro i a h; exact absurd h (by simp)
  | cons x xs ih =>
    intro i a h
    cases a with
    | zero =>
      have hx : x = d := by simpa using h
      show (i + 0) ∈ (if ((some x : Option String) == some d) = true
          then i :: matchingIdxs (some d) (List.enumFrom (i + 1) xs)
          else matchingIdxs (some d) (List.enumFrom (i + 1) xs))
      rw [if_pos (by simp [hx])]
      simp
    | succ m =>
      have hmem := ih (i + 1) m h
      show (i + (m + 1)) ∈ (if ((some x : Option String) == some d) = true
          then i :: matchingIdxs (some d) (List.enumFrom (i + 1) xs)
          else matchingIdxs (some d) (List.enumFrom (i + 1) xs))
      rw [show i + (m + 1) = (i + 1) + m by omega]
      cases hx : ((some x : Option String) == some d) with
      | true => rw [if_pos rfl]; exact List.mem_cons_of_mem _ hmem
      | false => rw [if_neg (by simp)]; exact hmem

/-- C3, counterexample: a NEO whose designation is `Eros` and an approach
whose key is `EROS` match under case-insensitive comparison of their
(already stripped) keys, yet flat construction leaves them unlinked - the
NEO's collection stays empty and the approach's `neo` stays absent -
because database.py compares the keys with the case-sensitive `==`. -/
theorem c3_counterexample_linking_not_case_insensitive :
    linkFlat [some "Eros"] [some "EROS"] = .ok ⟨[[]], [Option.none]⟩ ∧
    (⟨[[]], [Option.none]⟩ : LinkState) ≠ ⟨[[0]], [some 0]⟩ := by
  exact ⟨rfl, by simp⟩

/-- C3, amended: linking matches keys by exact (case-sensitive) string
equality.  Under the flat scan, for an entity that is the unique one whose
designation equals a key `d` and any event carrying exactly key `d`: the
event's `neo` reference ends up on that entity, and the entity's
collection is exactly the events keyed `d` in input order, the given
event among them. -/
theorem c3_amended_linking_case_sensitive (neoKeys : List (Option String))
    (apprKeys : List String) (d : String) (nE aX : Nat)
    (hE : neoKeys.get? nE = some (some d))
    (hU : ∀ j, neoKeys.get? j = some (some d) → j = nE)
    (hX : apprKeys.get? aX = some d) :
    linkFlat neoKeys (apprKeys.map some) =
      .ok (canonState neoKeys apprKeys) ∧
    (canonState neoKeys apprKeys).apprNeo.get? aX = some (some nE) ∧
    (canonState neoKeys apprKeys).neoApprs.get? nE =
      some (matchingIdxs (some d) apprKeys.enum) ∧
    aX ∈ matchingIdxs (some d) apprKeys.enum := by
  refine ⟨linkFlat_eq_canon neoKeys apprKeys, ?_, ?_, ?_⟩
  · show (apprKeys.map (fun k => lastMatch k neoKeys.enum)).get? aX = _
    rw [List.get?_map, hX]
    have hlm : lastMatch d neoKeys.enum = some (0 + nE) := by
      rw [show neoKeys.enum = List.enumFrom 0 neoKeys from rfl]
      exact lastMatch_enumFrom d neoKeys 0 nE hE hU
    show some (lastMatch d neoKeys.enum) = some (some nE)
    rw [hlm]
    norm_num
  · show (neoKeys.map
      (fun nk => matchingIdxs nk apprKeys.enum)).get? nE = _
    rw [List.get?_map, hE]
    rfl
  · have hmem := mem_matchingIdxs d apprKeys 0 aX hX
    rw [show apprKeys.enum = List.enumFrom 0 apprKeys from rfl]
    simpa using hmem

/-- C3, witness: one NEO designated `a` and one approach keyed `a` link
up under the flat scan, with the approach recorded in the NEO's
collection. -/
theorem c3_amended_witness :
    linkFlat [some "a"] (["a"].map some) =
      .ok (canonState [some "a"] ["a"]) ∧
    (canonState [some "a"] ["a"]).apprNeo.get? 0 = some (some 0) ∧
    (0 : Nat) ∈ matchingIdxs (some "a") (["a"].enum) := by
  have h := c3_amended_linking_case_sensitive [some "a"] ["a"] "a" 0 0 rfl
    (fun j hj => by
      cases j with
      | zero => rfl
      | succ m => exact absurd hj (by simp)) rfl
  exact ⟨h.1, h.2.1, h.2.2.2⟩

/-- Linking a whole group to one NEO appends the group to that NEO's
collection and leaves the other NEOs alone. -/
theorem approachedAs_neoApprs (n : Nat) (g : List Nat) :
    ∀ (st : LinkState) (j : Nat),
      (approachedAs st n g).neoApprs.get? j =
        if n = j then (st.neoApprs.get? j).map (fun l => l ++ g)
        else st.neoApprs.get? j := by
  induction g with
  | nil =>
    intro st j
    by_cases h : n = j
    · rw [if_pos h, show approachedAs st n ([] : List Nat) = st from rfl]
      cases hv : st.neoApprs.get? j with
      | none => rfl
      | some v => simp
    · rw [if_neg h]
      rfl
  | cons a g2 ih =>
    intro st j
    rw [show approachedAs st n (a :: g2)
          = approachedAs (linkOne st n a) n g2 from rfl, ih (linkOne st n a) j,
        linkOne_neoApprs_get?]
    by_cases h : n = j
    · rw [if_pos h, if_pos h, if_pos h]
      cases st.neoApprs.get? j <;> simp
    · rw [if_neg h, if_neg h, if_neg h]

/-- Linking a whole group to one NEO rewrites exactly the group members'
`neo` references. -/
theorem approachedAs_apprNeo (n : Nat) (g : List Nat) :
    ∀ (st : LinkState) (b : Nat),
      (approachedAs st n g).apprNeo.get? b =
        if b ∈ g then (st.apprNeo.get? b).map (fun _ => some n)
        else st.apprNeo.get? b := by
  induction g with
  | nil =>
    intro st b
    rw [if_neg (List.not_mem_nil b)]
    rfl
  | cons a g2 ih =>
    intro st b
    rw [show approachedAs st n (a :: g2)
          = approachedAs (linkOne st n a) n g2 from rfl, ih (linkOne st n a) b,
        linkOne_apprNeo_get?]
    by_cases hbg : b ∈ g2
    · rw [if_pos hbg, if_pos (List.mem_cons_of_mem a hbg)]
      by_cases hab : a = b
      · rw [if_pos hab]
        cases st.apprNeo.get? b <;> simp
      · rw [if_neg hab]
    · rw [if_neg hbg]
      by_cases hab : a = b
      · rw [if_pos hab, if_pos (by rw [← hab]; exact List.mem_cons_self a g2)]
      · rw [if_neg hab, if_neg (fun h => by
          rcases List.mem_cons.mp h with h1 | h1
          · exact hab h1.symm
          · exact hbg h1)]

/-- The concatenation, in stored group order, of the approach groups whose
key designates the NEO at a given index. -/
def groupsFor (neosMap : List (String × Nat)) (j : Nat) :
    List (String × List Nat) → List Nat
  | [] => []
  | (k, g) :: rest =>
    if alookup k neosMap = some j then g ++ groupsFor neosMap j rest
    else groupsFor neosMap j rest

/-- The NEO index the map construction leaves in an approach's `neo`
reference: that of the last processed group containing the approach. -/
def assignFor (neosMap : List (String × Nat)) (b : Nat) :
    List (String × List Nat) → Option Nat
  | [] => Option.none
  | (k, g) :: rest =>
    match assignFor neosMap b rest with
    | some n => some n
    | Option.none => if b ∈ g then alookup k neosMap else Option.none

/-- When no group's key designates the NEO, nothing is appended to it. -/
theorem groupsFor_eq_nil (neosMap : List (String × Nat)) (j : Nat) :
    ∀ groups : List (String × List Nat),
      (∀ p ∈ groups, alookup p.1 neosMap ≠ some j) →
      groupsFor neosMap j groups = [] := by
  intro groups
  induction groups with
  | nil => intro _; rfl
  | cons p rest ih =>
    intro h
    obtain ⟨k, g⟩ := p
    show (if alookup k neosMap = some j then g ++ groupsFor neosMap j rest
      else groupsFor neosMap j rest) = []
    rw [if_neg (h (k, g) (List.mem_cons_self _ _)),
      ih (fun q hq => h q (List.mem_cons_of_mem _ hq))]

/-- An approach contained in no group keeps its reference unassigned. -/
theorem assignFor_eq_none (neosMap : List (String × Nat)) (b : Nat) :
    ∀ groups : List (String × List Nat),
      (∀ p ∈ groups, b ∉ p.2) →
      assignFor neosMap b groups = Option.none := by
  intro groups
  induction groups with
  | nil => intro _; rfl
  | cons p rest ih =>
    intro h
    obtain ⟨k, g⟩ := p
    show (match assignFor neosMap b rest with
      | some n => some n
      | Option.none =>
        if b ∈ g then alookup k neosMap else Option.none) = Option.none
    rw [ih (fun q hq => h q (List.mem_cons_of_mem _ hq))]
    show (if b ∈ g then alookup k neosMap else Option.none) = Option.none
    rw [if_neg (h (k, g) (List.mem_cons_self _ _))]

/-- Characterization of the map construction loop: it never raises when
every group key is present in the NEO mapping, each NEO's collection
gains the concatenation of its designating groups in stored order, and
each approach's reference is overwritten by its last containing group's
NEO. -/
theorem mapLoop_char (neosMap : List (String × Nat)) :
    ∀ (groups : List (String × List Nat)) (st : LinkState),
      (∀ p ∈ groups, (alookup p.1 neosMap).isSome) →
      ∃ stM, mapLoop neosMap groups st = .ok stM ∧
        (∀ j, stM.neoApprs.get? j =
          (st.neoApprs.get? j).map
            (fun l => l ++ groupsFor neosMap j groups)) ∧
        (∀ b, stM.apprNeo.get? b =
          assignNeo (assignFor neosMap b groups) (st.apprNeo.get? b)) := by
  intro groups
  induction groups with
  | nil =>
    intro st _
    refine ⟨st, rfl, fun j => ?_, fun b => rfl⟩
    cases st.neoApprs.get? j <;> simp [groupsFor]
  | cons p rest ih =>
    intro st hAll
    obtain ⟨k, g⟩ := p
    have hk : (alookup k neosMap).isSome :=
      hAll (k, g) (List.mem_cons_self _ _)
    obtain ⟨n, hn⟩ := Option.isSome_iff_exists.mp hk
    have hstep : mapLoop neosMap ((k, g) :: rest) st =
        mapLoop neosMap rest (approachedAs st n g) := by
      show (match alookup k neosMap with
        | Option.none => Except.error PyErr.keyError
        | some nIdx => mapLoop neosMap rest (approachedAs st nIdx g)) = _
      rw [hn]
    obtain ⟨stM, hrun, hN, hA⟩ := ih (approachedAs st n g)
      (fun q hq => hAll q (List.mem_cons_of_mem _ hq))
    refine ⟨stM, hstep.trans hrun, fun j => ?_, fun b => ?_⟩
    · rw [hN j, approachedAs_neoApprs]
      have hgf : groupsFor neosMap j ((k, g) :: rest) =
          if alookup k neosMap = some j then g ++ groupsFor neosMap j rest
          else groupsFor neosMap j rest := rfl
      rw [hgf]
      by_cases hj : n = j
      · subst hj
        rw [if_pos rfl, if_pos hn]
        cases st.neoApprs.get? n <;> simp
      · rw [if_neg hj, if_neg (fun h => hj (by
          rw [hn] at h
          exact Option.some.inj h))]
    · rw [hA b, approachedAs_apprNeo]
      have haf : assignFor neosMap b ((k, g) :: rest) =
          match assignFor neosMap b rest with
          | some n2 => some n2
          | Option.none =>
            if b ∈ g then alookup k neosMap else Option.none := rfl
      rw [haf]
      cases har : assignFor neosMap b rest with
      | some m =>
        by_cases hbg : b ∈ g
        · rw [if_pos hbg]
          cases st.apprNeo.get? b <;> simp [assignNeo]
        · rw [if_neg hbg]
      | none =>
        by_cases hbg : b ∈ g
        · rw [if_pos hbg]
          show (st.apprNeo.get? b).map (fun _ => some n) =
            assignNeo (if b ∈ g then alookup k neosMap else Option.none)
              (st.apprNeo.get? b)
          rw [if_pos hbg, hn]
          rfl
        · rw [if_neg hbg]
          show st.apprNeo.get? b =
            assignNeo (if b ∈ g then alookup k neosMap else Option.none)
              (st.apprNeo.get? b)
          rw [if_neg hbg]
          rfl

/-- A successful association-list lookup returns a stored binding. -/
theorem alookup_mem {β : Type} (d : String) :
    ∀ (l : List (String × β)) (v : β),
      alookup d l = some v → (d, v) ∈ l := by
  intro l
  induction l with
  | nil => intro v h; cases h
  | cons p rest ih =>
    intro v h
    obtain ⟨k1, v1⟩ := p
    by_cases hk : k1 = d
    · subst hk
      have : some v1 = some v := by
        rw [show alookup k1 ((k1, v1) :: rest)
              = (if k1 == k1 then some v1 else alookup k1 rest) from rfl,
          if_pos (by simp)] at h
        exact h
      rw [← Option.some.inj this]
      exact List.mem_cons_self _ _
    · have : alookup d ((k1, v1) :: rest) = alookup d rest := by
        show (if k1 == d then some v1 else alookup d rest) = _
        rw [if_neg (by simpa using hk)]
      rw [this] at h
      exact List.mem_cons_of_mem _ (ih v h)

/-- A stored binding makes the association-list lookup succeed. -/
theorem mem_alookup_isSome {β : Type} (d : String) :
    ∀ (l : List (String × β)) (v : β),
      (d, v) ∈ l → (alookup d l).isSome := by
  intro l
  induction l with
  | nil => intro v h; cases h
  | cons p rest ih =>
    intro v h
    obtain ⟨k1, v1⟩ := p
    show (if k1 == d then some v1 else alookup d rest).isSome
    by_cases hk : k1 = d
    · rw [if_pos (by simpa using hk)]; rfl
    · rw [if_neg (by simpa using hk)]
      rcases List.mem_cons.mp h with h1 | h1
      · exact absurd (congrArg Prod.fst h1).symm hk
      · exact ih v h1

/-- Under unique keys, the concatenation of designating groups is just
the one group stored under the designation (or empty if absent). -/
theorem groupsFor_eq (neosMap : List (String × Nat)) (j : Nat) (d : String)
    (hd : alookup d neosMap = some j) :
    ∀ groups : List (String × List Nat),
      (∀ p ∈ groups, alookup p.1 neosMap = some j → p.1 = d) →
      ((groups.map Prod.fst).Nodup) →
      groupsFor neosMap j groups =
        (match alookup d groups with
         | some g => g
         | Option.none => []) := by
  intro groups
  induction groups with
  | nil => intro _ _; rfl
  | cons p rest ih =>
    intro honly hnd
    obtain ⟨k1, g1⟩ := p
    simp only [List.map_cons, List.nodup_cons] at hnd
    show (if alookup k1 neosMap = some j then g1 ++ groupsFor neosMap j rest
        else groupsFor neosMap j rest) = _
    by_cases hk : k1 = d
    · subst hk
      rw [if_pos hd]
      have hrest : ∀ p ∈ rest, alookup p.1 neosMap ≠ some j := by
        intro q hq hlq
        have hq1 : q.1 = k1 := honly q (List.mem_cons_of_mem _ hq) hlq
        exact hnd.1 (by rw [← hq1]; exact List.mem_map_of_mem Prod.fst hq)
      rw [groupsFor_eq_nil neosMap j rest hrest, List.append_nil]
      have : alookup k1 ((k1, g1) :: rest) = some g1 := by
        show (if k1 == k1 then some g1 else alookup k1 rest) = some g1
        rw [if_pos (by simp)]
      rw [this]
    · rw [if_neg (fun h => hk (honly (k1, g1) (List.mem_cons_self _ _) h)),
        ih (fun q hq h => honly q (List.mem_cons_of_mem _ hq) h) hnd.2]
      have : alookup d ((k1, g1) :: rest) = alookup d rest := by
        show (if k1 == d then some g1 else alookup d rest) = _
        rw [if_neg (by simpa using hk)]
      rw [this]

/-- When every group containing an approach carries the same key, the
reference the map construction assigns is that key's NEO lookup. -/
theorem assignFor_eq (neosMap : List (String × Nat)) (b : Nat) (k : String) :
    ∀ groups : List (String × List Nat),
      (∃ g, (k, g) ∈ groups ∧ b ∈ g) →
      (∀ p ∈ groups, b ∈ p.2 → p.1 = k) →
      assignFor neosMap b groups = alookup k neosMap := by
  intro groups
  induction groups with
  | nil => rintro ⟨g, hg, -⟩ _; cases hg
  | cons p rest ih =>
    rintro ⟨g, hg, hbg⟩ honly
    obtain ⟨k1, g1⟩ := p
    show (match assignFor neosMap b rest with
      | some n => some n
      | Option.none =>
        if b ∈ g1 then alookup k1 neosMap else Option.none)
      = alookup k neosMap
    by_cases hrest : ∃ q ∈ rest, b ∈ q.2
    · obtain ⟨q, hq, hbq⟩ := hrest
      have hqk : q.1 = k := honly q (List.mem_cons_of_mem _ hq) hbq
      have hq2 : (k, q.2) ∈ rest := by rw [← hqk]; exact hq
      have har : assignFor neosMap b rest = alookup k neosMap :=
        ih ⟨q.2, hq2, hbq⟩
          (fun r hr hbr => honly r (List.mem_cons_of_mem _ hr) hbr)
      rw [har]
      cases hak : alookup k neosMap with
      | some n => rfl
      | none =>
        show (if b ∈ g1 then alookup k1 neosMap else Option.none)
          = Option.none
        by_cases hbg1 : b ∈ g1
        · have hk1 : k1 = k := honly (k1, g1) (List.mem_cons_self _ _) hbg1
          rw [if_pos hbg1, hk1, hak]
        · rw [if_neg hbg1]
    · push_neg at hrest
      rw [assignFor_eq_none neosMap b rest hrest]
      have hbg1 : b ∈ g1 := by
        rcases List.mem_cons.mp hg with h | h
        · rw [Prod.mk.injEq] at h
          exact h.2 ▸ hbg
        · exact absurd hbg (hrest (k, g) h)
      show (if b ∈ g1 then alookup k1 neosMap else Option.none)
        = alookup k neosMap
      have hk1 : k1 = k := honly (k1, g1) (List.mem_cons_self _ _) hbg1
      rw [if_pos hbg1, hk1]

/-- An absent designation matches no event. -/
theorem matchingIdxs_none_key :
    ∀ pairs : List (Nat × String), matchingIdxs Option.none pairs = [] := by
  intro pairs
  induction pairs with
  | nil => rfl
  | cons p rest ih =>
    obtain ⟨a, k⟩ := p
    show (if ((some k : Option String) == Option.none) = true
      then a :: matchingIdxs Option.none rest
      else matchingIdxs Option.none rest) = []
    rw [if_neg (by simp), ih]

/-- A designation carried by no event matches no event. -/
theorem matchingIdxs_absent (d : String) :
    ∀ (l : List String) (i : Nat), (∀ a, l.get? a ≠ some d) →
      matchingIdxs (some d) (List.enumFrom i l) = [] := by
  intro l
  induction l with
  | nil => intro i _; rfl
  | cons x xs ih =>
    intro i h
    show (if ((some x : Option String) == some d) = true
      then i :: matchingIdxs (some d) (List.enumFrom (i + 1) xs)
      else matchingIdxs (some d) (List.enumFrom (i + 1) xs)) = []
    rw [if_neg (by
        simp only [beq_iff_eq, Option.some.injEq]
        exact fun hh => h 0 (by rw [show (x :: xs).get? 0 = some x from rfl, hh])),
      ih (i + 1) (fun a ha => h (a + 1) ha)]

/-- A member of the matching events carries exactly the designation. -/
theorem mem_matchingIdxs_inv (d : String) :
    ∀ (l : List String) (i b : Nat),
      b ∈ matchingIdxs (some d) (List.enumFrom i l) →
      i ≤ b ∧ l.get? (b - i) = some d := by
  intro l
  induction l with
  | nil => intro i b h; cases h
  | cons x xs ih =>
    intro i b h
    rw [show matchingIdxs (some d) (List.enumFrom i (x :: xs))
        = (if ((some x : Option String) == some d) = true
          then i :: matchingIdxs (some d) (List.enumFrom (i + 1) xs)
          else matchingIdxs (some d) (List.enumFrom (i + 1) xs)) from rfl]
      at h
    by_cases hx : x = d
    · rw [if_pos (by simp [hx])] at h
      rcases List.mem_cons.mp h with h1 | h1
      · subst h1
        refine ⟨le_rfl, ?_⟩
        rw [Nat.sub_self]
        show some x = some d
        rw [hx]
      · obtain ⟨h2, h3⟩ := ih (i + 1) b h1
        refine ⟨by omega, ?_⟩
        rw [show b - i = (b - (i + 1)) + 1 by omega]
        exact h3
    · rw [if_neg (by simp [hx])] at h
      obtain ⟨h2, h3⟩ := ih (i + 1) b h
      refine ⟨by omega, ?_⟩
      rw [show b - i = (b - (i + 1)) + 1 by omega]
      exact h3

/-- The designation-indexed NEO mapping inverts the stored designations:
the last matching scan result coincides with the dictionary lookup. -/
theorem lastMatch_eq_alookup (neoKeys : List (Option String))
    (neosMap : List (String × Nat))
    (hNeos : ∀ (d : String) (n : Nat),
      alookup d neosMap = some n ↔ neoKeys.get? n = some (some d))
    (k : String) :
    lastMatch k neoKeys.enum = alookup k neosMap := by
  cases hak : alookup k neosMap with
  | some n =>
    have h1 : neoKeys.get? n = some (some k) := (hNeos k n).mp hak
    have h2 : ∀ j, neoKeys.get? j = some (some k) → j = n := by
      intro j hj
      have hh := (hNeos k j).mpr hj
      rw [hak] at hh
      exact (Option.some.inj hh).symm
    rw [show neoKeys.enum = List.enumFrom 0 neoKeys from rfl,
      lastMatch_enumFrom k neoKeys 0 n h1 h2]
    norm_num
  | none =>
    have h : ∀ j, neoKeys.get? j ≠ some (some k) := by
      intro j hj
      have hh := (hNeos k j).mpr hj
      rw [hak] at hh
      cases hh
    rw [show neoKeys.enum = List.enumFrom 0 neoKeys from rfl]
    exact lastMatch_none k neoKeys 0 h

/-- Map-representation construction (database.py, lines 52-58) produces
the same canonical linkage as the flat scan, provided the NEO mapping is
exactly the designation-keyed presentation of the NEO collection, the
approach mapping is a designation-keyed grouping of the approach
collection (each group holding exactly its key's approaches in input
order, keys unique and covering every approach), and every group key has
a NEO - otherwise `neos[neopdes]` raises `KeyError`. -/
theorem linkMap_eq_canon (neoKeys : List (Option String))
    (apprKeys : List String) (neosMap : List (String × Nat))
    (apprsMap : List (String × List Nat))
    (hNeos : ∀ (d : String) (n : Nat),
      alookup d neosMap = some n ↔ neoKeys.get? n = some (some d))
    (hG1 : ∀ p ∈ apprsMap, p.2 = matchingIdxs (some p.1) apprKeys.enum)
    (hG2 : (apprsMap.map Prod.fst).Nodup)
    (hG3 : ∀ (a : Nat) (k : String), apprKeys.get? a = some k →
      ∃ g, (k, g) ∈ apprsMap)
    (hAllK : ∀ p ∈ apprsMap, (alookup p.1 neosMap).isSome) :
    linkMap neosMap apprsMap neoKeys.length apprKeys.length =
      .ok (canonState neoKeys apprKeys) := by
  obtain ⟨stM, hrun, hN, hA⟩ := mapLoop_char neosMap apprsMap
    (initState neoKeys.length apprKeys.length) hAllK
  have hfinal : stM = canonState neoKeys apprKeys := by
    refine linkStateExt _ _ (List.ext_get?_iff.mpr fun j => ?_)
      (List.ext_get?_iff.mpr fun b => ?_)
    · rw [hN j]
      show _ = (neoKeys.map
        (fun nk => matchingIdxs nk apprKeys.enum)).get? j
      rw [List.get?_map]
      cases hj : neoKeys.get? j with
      | none =>
        have hjge : neoKeys.length ≤ j := List.get?_eq_none.mp hj
        rw [show (initState neoKeys.length apprKeys.length).neoApprs
              = List.replicate neoKeys.length [] from rfl,
          replicate_get?, if_neg (by omega)]
        rfl
      | some nk =>
        have hjlt : j < neoKeys.length := (List.get?_eq_some.mp hj).1
        rw [show (initState neoKeys.length apprKeys.length).neoApprs
              = List.replicate neoKeys.length [] from rfl,
          replicate_get?, if_pos hjlt]
        show some ([] ++ groupsFor neosMap j apprsMap)
          = some (matchingIdxs nk apprKeys.enum)
        rw [List.nil_append]
        cases nk with
        | none =>
          have hno : ∀ p ∈ apprsMap, alookup p.1 neosMap ≠ some j := by
            intro q hq hlq
            have hh := (hNeos q.1 j).mp hlq
            rw [hj] at hh
            simp at hh
          rw [groupsFor_eq_nil neosMap j apprsMap hno, matchingIdxs_none_key]
        | some d =>
          have hd : alookup d neosMap = some j := (hNeos d j).mpr hj
          have honly : ∀ p ∈ apprsMap,
              alookup p.1 neosMap = some j → p.1 = d := by
            intro q hq hlq
            have hh := (hNeos q.1 j).mp hlq
            rw [hj] at hh
            exact (Option.some.inj (Option.some.inj hh)).symm
          rw [groupsFor_eq neosMap j d hd apprsMap honly hG2]
          cases hag : alookup d apprsMap with
          | some g =>
            have hgm : (d, g) ∈ apprsMap := alookup_mem d apprsMap g hag
            have hgv : g = matchingIdxs (some d) apprKeys.enum :=
              hG1 (d, g) hgm
            rw [hgv]
          | none =>
            have habs : ∀ a, apprKeys.get? a ≠ some d := by
              intro a ha
              obtain ⟨g, hg⟩ := hG3 a d ha
              have := mem_alookup_isSome d apprsMap g hg
              rw [hag] at this
              cases this
            rw [show apprKeys.enum = List.enumFrom 0 apprKeys from rfl,
              matchingIdxs_absent d apprKeys 0 habs]
    · rw [hA b]
      show _ = (apprKeys.map (fun k => lastMatch k neoKeys.enum)).get? b
      rw [List.get?_map]
      cases hb : apprKeys.get? b with
      | none =>
        have hbge : apprKeys.length ≤ b := List.get?_eq_none.mp hb
        rw [show (initState neoKeys.length apprKeys.length).apprNeo
              = List.replicate apprKeys.length Option.none from rfl,
          replicate_get?, if_neg (by omega)]
        cases assignFor neosMap b apprsMap <;> rfl
      | some k =>
        have hblt : b < apprKeys.length := (List.get?_eq_some.mp hb).1
        rw [show (initState neoKeys.length apprKeys.length).apprNeo
              = List.replicate apprKeys.length Option.none from rfl,
          replicate_get?, if_pos hblt]
        obtain ⟨g, hg⟩ := hG3 b k hb
        have hgv : g = matchingIdxs (some k) apprKeys.enum :=
          hG1 (k, g) hg
        have hbg : b ∈ g := by
          rw [hgv, show apprKeys.enum = List.enumFrom 0 apprKeys from rfl]
          have := mem_matchingIdxs k apprKeys 0 b hb
          simpa using this
        have honlyb : ∀ p ∈ apprsMap, b ∈ p.2 → p.1 = k := by
          intro q hq hbq
          rw [hG1 q hq,
            show apprKeys.enum = List.enumFrom 0 apprKeys from rfl] at hbq
          have hinv := (mem_matchingIdxs_inv q.1 apprKeys 0 b hbq).2
          rw [Nat.sub_zero, hb] at hinv
          exact (Option.some.inj hinv).symm
        have haf : assignFor neosMap b apprsMap = alookup k neosMap :=
          assignFor_eq neosMap b k apprsMap ⟨g, hg, hbg⟩ honlyb
        rw [haf, ← lastMatch_eq_alookup neoKeys neosMap hNeos k]
        show assignNeo (lastMatch k neoKeys.enum) (some Option.none)
          = some (lastMatch k neoKeys.enum)
        cases hlm : lastMatch k neoKeys.enum <;> rfl
  rw [show linkMap neosMap apprsMap neoKeys.length apprKeys.length
        = mapLoop neosMap apprsMap
            (initState neoKeys.length apprKeys.length) from rfl,
    hrun, hfinal]

/-- C4, counterexample: for the logical input of one entity designated `x`
and one event keyed `y` (matching no entity), the flat-scan strategy
completes with a final linkage while the pre-grouped-map strategy raises
`KeyError` - the two backing representations do not produce identical
final linkage for every logical input. -/
theorem c4_counterexample_strategies_disagree :
    linkFlat [some "x"] [some "y"] = .ok ⟨[[]], [Option.none]⟩ ∧
    linkMap [("x", 0)] [("y", [0])] 1 1 = .error .keyError ∧
    (Except.error PyErr.keyError : Except PyErr LinkState) ≠
      .ok ⟨[[]], [Option.none]⟩ :=
  ⟨rfl, rfl, fun h => Except.noConfusion h⟩

/-- C4, amended: when every event's key matches an entity and the mapping
presentations are faithful - the NEO mapping keyed exactly by the stored
designations, the approach mapping grouping exactly the events by key with
unique keys covering every event - the flat-scan and pre-grouped-map
strategies both complete and produce the same final linkage: the shared
canonical state, with the same events in the same (input) order in each
entity's collection and the same entity reference on each event. -/
theorem c4_amended_strategies_agree (neoKeys : List (Option String))
    (apprKeys : List String) (neosMap : List (String × Nat))
    (apprsMap : List (String × List Nat))
    (hNeos : ∀ (d : String) (n : Nat),
      alookup d neosMap = some n ↔ neoKeys.get? n = some (some d))
    (hG1 : ∀ p ∈ apprsMap, p.2 = matchingIdxs (some p.1) apprKeys.enum)
    (hG2 : (apprsMap.map Prod.fst).Nodup)
    (hG3 : ∀ (a : Nat) (k : String), apprKeys.get? a = some k →
      ∃ g, (k, g) ∈ apprsMap)
    (hAllK : ∀ p ∈ apprsMap, (alookup p.1 neosMap).isSome) :
    linkFlat neoKeys (apprKeys.map some) =
      .ok (canonState neoKeys apprKeys) ∧
    linkMap neosMap apprsMap neoKeys.length apprKeys.length =
      .ok (canonState neoKeys apprKeys) :=
  ⟨linkFlat_eq_canon neoKeys apprKeys,
   linkMap_eq_canon neoKeys apprKeys neosMap apprsMap
     hNeos hG1 hG2 hG3 hAllK⟩

/-- C4, witness: two entities `a`, `b` and three events keyed
`b`, `a`, `b`; the flat scan and the grouped map (groups `b ↦ [0, 2]`,
`a ↦ [1]`) produce the same linkage. -/
theorem c4_amended_strategies_agree_witness :
    linkFlat [some "a", some "b"] (["b", "a", "b"].map some) =
      .ok (canonState [some "a", some "b"] ["b", "a", "b"]) ∧
    linkMap [("a", 0), ("b", 1)] [("b", [0, 2]), ("a", [1])] 2 3 =
      .ok (canonState [some "a", some "b"] ["b", "a", "b"]) := by
  have hNeos : ∀ (d : String) (n : Nat),
      alookup d [("a", 0), ("b", 1)] = some n ↔
        ([some "a", some "b"] : List (Option String)).get? n
          = some (some d) := by
    intro d n
    constructor
    · intro h
      by_cases ha : "a" = d
      · have h0 : some 0 = some n := by
          rw [show alookup d [("a", 0), ("b", 1)]
              = (if ("a" == d) = true then some 0
                else if ("b" == d) = true then some 1
                else Option.none) from rfl,
            if_pos (by simpa using ha)] at h
          exact h
        rw [← Option.some.inj h0, ← ha]
        rfl
      · by_cases hb2 : "b" = d
        · have h1 : some 1 = some n := by
            rw [show alookup d [("a", 0), ("b", 1)]
                = (if ("a" == d) = true then some 0
                  else if ("b" == d) = true then some 1
                  else Option.none) from rfl,
              if_neg (by simpa using ha),
              if_pos (by simpa using hb2)] at h
            exact h
          rw [← Option.some.inj h1, ← hb2]
          rfl
        · exfalso
          rw [show alookup d [("a", 0), ("b", 1)]
              = (if ("a" == d) = true then some 0
                else if ("b" == d) = true then some 1
                else Option.none) from rfl,
            if_neg (by simpa using ha), if_neg (by simpa using hb2)] at h
          cases h
    · intro h
      cases n with
      | zero =>
        have hd : d = "a" := (Option.some.inj (Option.some.inj h)).symm
        rw [hd]
        decide
      | succ m =>
        cases m with
        | zero =>
          have hd : d = "b" := (Option.some.inj (Option.some.inj h)).symm
          rw [hd]
          decide
        | succ m2 => exact absurd h (by simp)
  have hG3 : ∀ (a : Nat) (k : String),
      (["b", "a", "b"] : List String).get? a = some k →
      ∃ g, (k, g) ∈ [("b", [0, 2]), ("a", [1])] := by
    intro a k h
    match a, h with
    | 0, h =>
      have hk : k = "b" := (Option.some.inj h).symm
      exact ⟨[0, 2], by rw [hk]; exact List.mem_cons_self _ _⟩
    | 1, h =>
      have hk : k = "a" := (Option.some.inj h).symm
      exact ⟨[1], by rw [hk]; simp⟩
    | 2, h =>
      have hk : k = "b" := (Option.some.inj h).symm
      exact ⟨[0, 2], by rw [hk]; exact List.mem_cons_self _ _⟩
    | (m + 3), h => exact absurd h (by simp)
  exact c4_amended_strategies_agree [some "a", some "b"] ["b", "a", "b"]
    [("a", 0), ("b", 1)] [("b", [0, 2]), ("a", [1])]
    hNeos (by decide) (by decide) hG3 (by decide)
